import Mathlib

set_option maxHeartbeats 1000000
set_option maxRecDepth 8000

namespace Bee

/- Shallow embedding of the reserve sampler (package localstore), the stamper
   (package postage) and their helpers, from src/unnamed/part_001.  Bytes are
   modelled as Nat, byte strings as List Nat.  External collaborators (the
   keyed BMT hash, the CAC BMT hash, db.validStamp, signature recovery, the
   signer) are abstract function parameters. -/

-- `sampleSize = 16` (src/unnamed/part_001, line 448).
def sampleSize : Nat := 16

-- Model of Go `bytes.Compare` on byte slices.
def bytesCompare : List Nat → List Nat → Int
  | [], [] => 0
  | [], _ :: _ => -1
  | _ :: _, [] => 1
  | a :: as, b :: bs => if a < b then -1 else if b < a then 1 else bytesCompare as bs

-- Source line 689: `func le(a, b []byte) bool { return bytes.Compare(a, b) == -1 }`.
def le (a b : List Nat) : Bool := bytesCompare a b == -1

-- The companion non-strict order `a ≤ b` iff not `b < a`; used to state sortedness.
def keyLe (a b : List Nat) : Prop := le b a = false

/- ------------------------------------------------------------------
   Data model of the sampler (storage.SampleEntry, shed.Item chunk data).
   ------------------------------------------------------------------ -/

-- The chunk record returned by `db.get` (address, data and stamp fields).
structure ChunkItem where
  address : List Nat
  data : List Nat
  batchID : List Nat
  index : List Nat
  timestamp : List Nat
  sig : List Nat
deriving DecidableEq

-- `storage.SampleEntry{TransformedAddress, ChunkItem}` (line 570).
structure SampleEntry where
  transformedAddress : List Nat
  chunkItem : ChunkItem
deriving DecidableEq

-- `swarm.NewChunk(swarm.NewAddress(addr), data)` (line 624).
structure SwarmChunk where
  address : List Nat
  data : List Nat
deriving DecidableEq

def NewChunk (address data : List Nat) : SwarmChunk := ⟨address, data⟩

def chunkOfEntry (e : SampleEntry) : SwarmChunk :=
  NewChunk e.chunkItem.address e.chunkItem.data

-- `binary.BigEndian.Uint64` over the first 8 bytes (line 555).
def beUint64 (l : List Nat) : Nat :=
  (l.take 8).foldl (fun acc b => acc * 256 + b % 256) 0

/-- Modelled from the spec: `postage.Stamp.MarshalBinary` is not under `src/`;
per §6 a stamp serializes as `batchId(32) ‖ index(8) ‖ timestamp(8) ‖ signature(65)`. -/
def stampMarshal (it : ChunkItem) : List Nat :=
  it.batchID ++ it.index ++ it.timestamp ++ it.sig

/- ------------------------------------------------------------------
   Stage B (lines 537-583): fetch the chunk, drop misses and chunks whose
   stamp timestamp exceeds the consensus time, pair each survivor with its
   transformed address `trHash(chunk data)` (the anchor-keyed BMT hash,
   abstracted as the parameter `trHash`).
   ------------------------------------------------------------------ -/

def stageB (trHash : List Nat → List Nat) (consensusTime : Nat)
    (stream : List (Option ChunkItem)) : List SampleEntry :=
  stream.filterMap (fun oc =>
    match oc with
    | none => none
    | some c =>
        if beUint64 c.timestamp > consensusTime then none
        else some ⟨trHash c.data, c⟩)

/- ------------------------------------------------------------------
   Stage C (lines 590-651): the sorted-insert buffer.
   ------------------------------------------------------------------ -/

-- The scan of the `for i, sItem := range sampleItems` loop inside `insert`
-- (lines 593-602): place the item before the first strictly greater element,
-- reporting whether it was placed.
def insertScan (item : SampleEntry) : List SampleEntry → List SampleEntry × Bool
  | [] => ([], false)
  | sItem :: rest =>
      if le item.transformedAddress sItem.transformedAddress then
        (item :: sItem :: rest, true)
      else
        ((fun p => (sItem :: p.1, p.2)) (insertScan item rest))

-- The `insert` closure of `ReserveSample` (lines 593-609): scan-insert,
-- truncate to `sampleSize`, append at the end when not yet placed and room is left.
def insert (item : SampleEntry) (sampleItems : List SampleEntry) : List SampleEntry :=
  (fun p =>
    (fun s1 =>
      if decide (s1.length < sampleSize) && !p.2 then s1 ++ [item] else s1)
    (if decide (sampleSize < p.1.length) then p.1.take sampleSize else p.1))
  (insertScan item sampleItems)

-- `currentMaxAddr` of the Stage C loop (lines 614-619).
def currentMaxAddr (s : List SampleEntry) : List Nat :=
  match s.getLast? with
  | some it => it.transformedAddress
  | none => List.replicate 32 0

-- The Stage C validity conjunction: `db.validStamp` succeeds on the chunk and
-- its marshalled stamp, and the chunk-validity function accepts the chunk
-- (lines 633-647).  Both checks are abstract parameters.
def eligEntry (validStampP : SwarmChunk → List Nat → Bool)
    (vcf : SwarmChunk → Bool) (e : SampleEntry) : Bool :=
  validStampP (chunkOfEntry e) (stampMarshal e.chunkItem) && vcf (chunkOfEntry e)

-- One iteration of the Stage C loop (lines 613-651).  `vcfOpt` models the
-- package-level function variable `validChunkFn`: calling it while it is
-- `none` (a nil Go function) is an undefined step, returning `none`.
def stageCStepOpt (validStampP : SwarmChunk → List Nat → Bool)
    (vcfOpt : Option (SwarmChunk → Bool))
    (s : List SampleEntry) (e : SampleEntry) : Option (List SampleEntry) :=
  if le e.transformedAddress (currentMaxAddr s) || decide (s.length < sampleSize) then
    if validStampP (chunkOfEntry e) (stampMarshal e.chunkItem) then
      match vcfOpt with
      | none => none
      | some f => if f (chunkOfEntry e) then some (insert e s) else some s
    else some s
  else some s

-- The same step with a wired (total) chunk-validity function.
def stageCStep (validStampP : SwarmChunk → List Nat → Bool)
    (vcf : SwarmChunk → Bool)
    (s : List SampleEntry) (e : SampleEntry) : List SampleEntry :=
  if le e.transformedAddress (currentMaxAddr s) || decide (s.length < sampleSize) then
    if eligEntry validStampP vcf e then insert e s else s
  else s

-- The whole Stage C loop over the entries delivered by Stage B.
def sampleItemsRun (validStampP : SwarmChunk → List Nat → Bool)
    (vcfOpt : Option (SwarmChunk → Bool))
    (entries : List SampleEntry) : Option (List SampleEntry) :=
  entries.foldlM (stageCStepOpt validStampP vcfOpt) []

/- ------------------------------------------------------------------
   Hash assembly (lines 661-680).
   ------------------------------------------------------------------ -/

-- `sampleContent` accumulation (lines 666-669).
def assembleContent (items : List SampleEntry) : List Nat :=
  items.foldl (fun acc it => acc ++ it.chunkItem.address ++ it.transformedAddress) []

-- 8-byte little-endian span encoding.
def le64 (n : Nat) : List Nat :=
  [n % 256, n / 2 ^ 8 % 256, n / 2 ^ 16 % 256, n / 2 ^ 24 % 256,
   n / 2 ^ 32 % 256, n / 2 ^ 40 % 256, n / 2 ^ 48 % 256, n / 2 ^ 56 % 256]

structure CacChunk where
  address : List Nat
  data : List Nat
deriving DecidableEq

/-- Modelled from the spec: `cac.New` is not under `src/`; per §4.3 it prepends
an 8-byte little-endian span of the payload length, the address is the BMT hash
of the resulting data (abstracted as `bmtHash`), and a payload longer than 4096
bytes is rejected. -/
def cacNew (bmtHash : List Nat → List Nat) (payload : List Nat) : Option CacChunk :=
  if payload.length ≤ 4096 then
    some ⟨bmtHash (le64 payload.length ++ payload), le64 payload.length ++ payload⟩
  else none

-- `storage.Sample` (lines 676-680).
structure Sample where
  items : List SampleEntry
  sampleContent : List Nat
  hash : List Nat
deriving DecidableEq

-- Assembling the sample value from the selected items (lines 661-680).
def sampleOfItems (bmtHash : List Nat → List Nat)
    (items : List SampleEntry) : Option Sample :=
  Option.map (fun c => ⟨items, assembleContent items, c.address⟩)
    (cacNew bmtHash (assembleContent items))

-- Stage C plus hash assembly, starting from the entries Stage B delivers.
def reserveSampleFromEntries (bmtHash : List Nat → List Nat)
    (validStampP : SwarmChunk → List Nat → Bool)
    (vcfOpt : Option (SwarmChunk → Bool))
    (entries : List SampleEntry) : Option Sample :=
  Option.bind (sampleItemsRun validStampP vcfOpt entries) (sampleOfItems bmtHash)

-- `(*DB).ReserveSample` (lines 491-686), success path: the iteration stream
-- (already restricted to the storage radius by `pullIndex.Iterate`) flows
-- through Stage B and Stage C, then the sample hash is assembled.
def ReserveSample (trHash bmtHash : List Nat → List Nat)
    (validStampP : SwarmChunk → List Nat → Bool)
    (vcfOpt : Option (SwarmChunk → Bool))
    (consensusTime : Nat) (stream : List (Option ChunkItem)) : Option Sample :=
  reserveSampleFromEntries bmtHash validStampP vcfOpt
    (stageB trHash consensusTime stream)

/- ------------------------------------------------------------------
   Value-level mirror of the Stage C buffer, used to state and prove the
   top-k property: the buffer is the 16 smallest transformed addresses.
   ------------------------------------------------------------------ -/

-- Insert a value before the first strictly greater element.
def vInsert (v : List Nat) : List (List Nat) → List (List Nat)
  | [] => [v]
  | w :: t => if le v w then v :: w :: t else w :: vInsert v t

def vInsertScan (v : List Nat) : List (List Nat) → List (List Nat) × Bool
  | [] => ([], false)
  | w :: t =>
      if le v w then (v :: w :: t, true)
      else ((fun p => (w :: p.1, p.2)) (vInsertScan v t))

def vInsertGo (v : List Nat) (cur : List (List Nat)) : List (List Nat) :=
  (fun p =>
    (fun s1 =>
      if decide (s1.length < sampleSize) && !p.2 then s1 ++ [v] else s1)
    (if decide (sampleSize < p.1.length) then p.1.take sampleSize else p.1))
  (vInsertScan v cur)

-- Insertion sort by the sampler's byte order (smallest first).
def sortLe (l : List (List Nat)) : List (List Nat) :=
  l.foldl (fun acc v => vInsert v acc) []

-- The 16 smallest values of `l` in ascending order.
def topk (l : List (List Nat)) : List (List Nat) :=
  (sortLe l).take sampleSize

def vCurrentMax (cur : List (List Nat)) : List Nat :=
  match cur.getLast? with
  | some v => v
  | none => List.replicate 32 0

def stepVal (cur : List (List Nat)) (v : List Nat) : List (List Nat) :=
  if le v (vCurrentMax cur) || decide (cur.length < sampleSize) then
    vInsertGo v cur
  else cur

/- ------------------------------------------------------------------
   Stamper (package postage, src/unnamed/part_001 lines 291-420).
   ------------------------------------------------------------------ -/

-- Stored stamp record keyed by (batch, chunk address) (lines 337-340).
structure StampItem where
  batchID : List Nat
  chunkAddress : List Nat
  batchIndex : List Nat
  batchTimestamp : List Nat
deriving DecidableEq

-- `postage.Stamp` value as assembled by `NewStamp` (line 386).
structure Stamp where
  batchID : List Nat
  index : List Nat
  timestamp : List Nat
  sig : List Nat
deriving DecidableEq

def NewStamp (batchID index timestamp sig : List Nat) : Stamp :=
  ⟨batchID, index, timestamp, sig⟩

-- Per-batch issuer state (batch metadata plus bucket population counters).
structure StampIssuer where
  batchID : List Nat
  depth : Nat
  bucketDepth : Nat
  buckets : List Nat
deriving DecidableEq

def BucketUpperBound (iss : StampIssuer) : Nat :=
  2 ^ (iss.depth - iss.bucketDepth)

def beUint32 (l : List Nat) : Nat :=
  (l.take 4).foldl (fun acc b => acc * 256 + b % 256) 0

def be32Bytes (n : Nat) : List Nat :=
  [n / 2 ^ 24 % 256, n / 2 ^ 16 % 256, n / 2 ^ 8 % 256, n % 256]

def be64Bytes (n : Nat) : List Nat :=
  [n / 2 ^ 56 % 256, n / 2 ^ 48 % 256, n / 2 ^ 40 % 256, n / 2 ^ 32 % 256,
   n / 2 ^ 24 % 256, n / 2 ^ 16 % 256, n / 2 ^ 8 % 256, n % 256]

/-- Modelled from the spec: `ToBucket` is not under `src/`; per the glossary a
bucket is keyed by the top `bucketDepth` bits of the chunk address (read from
its first four bytes, big endian). -/
def ToBucket (bucketDepth : Nat) (addr : List Nat) : Nat :=
  beUint32 addr / 2 ^ (32 - bucketDepth)

/-- Modelled from the spec: `indexToBytes` is not under `src/`; per §3 the
8-byte `batchIndex` encodes the bucket and the sub-index within it (4-byte
big-endian each). -/
def indexToBytes (bucket index : Nat) : List Nat :=
  be32Bytes bucket ++ be32Bytes index

/-- Modelled from the spec: `unixTime` is not under `src/`; per §3 a stamp
timestamp is the current time as 8-byte big-endian unix nanoseconds
(`now` passed in as a parameter). -/
def unixTime (now : Nat) : List Nat := be64Bytes now

/-- Modelled from the spec: `ToSignDigest` is not under `src/`; per §3 the stamp
is tied to the chunk via `toSignDigest(chunkAddr, batchId, index, timestamp)`,
a digest (abstract hash `h`) of the concatenated fields. -/
def ToSignDigest (h : List Nat → List Nat)
    (addr batchID index timestamp : List Nat) : List Nat :=
  h (addr ++ batchID ++ index ++ timestamp)

-- The error kinds surfaced by `stamper.Stamp`.
inductive StampErr
  | bucketFull
  | putFailed (code : Nat)
  | wrappedGet (code : Nat)
deriving DecidableEq

-- Outcome of the `st.store.Get(item)` lookup (line 347).
inductive StoreGetResult
  | found (item : StampItem)
  | notFound
  | err (code : Nat)
deriving DecidableEq

/-- Modelled from the spec: `StampIssuer.increment` is not under `src/`; per
§4.2 it advances the bucket counter of the chunk's bucket, erroring
`BucketFull` when the counter has reached `2^(depth − bucketDepth)`, and
returns the encoded `(batchIndex, batchTimestamp)`. -/
def StampIssuer.increment (iss : StampIssuer) (now : Nat) (addr : List Nat) :
    Except StampErr (List Nat × List Nat × StampIssuer) :=
  (fun b =>
    (fun cnt =>
      if BucketUpperBound iss ≤ cnt then Except.error StampErr.bucketFull
      else Except.ok (indexToBytes b cnt, unixTime now,
        ⟨iss.batchID, iss.depth, iss.bucketDepth, iss.buckets.set b (cnt + 1)⟩))
    (iss.buckets.getD b 0))
  (ToBucket iss.bucketDepth addr)

-- `(*stamper).Stamp` (lines 333-387), modelled as a function of the store
-- lookup result `getRes`, the store-write outcome `putErr` and the current
-- time `now`; returns the stamp, the stored item and the updated issuer.
def stamperStamp (iss : StampIssuer) (signer h : List Nat → List Nat)
    (now : Nat) (getRes : StoreGetResult) (putErr : Option Nat)
    (addr : List Nat) : Except StampErr (Stamp × StampItem × StampIssuer) :=
  match getRes with
  | StoreGetResult.notFound =>
      (fun item =>
        match putErr with
        | some e => Except.error (StampErr.putFailed e)
        | none =>
            Except.ok (NewStamp iss.batchID item.batchIndex item.batchTimestamp
              (signer (ToSignDigest h addr iss.batchID item.batchIndex item.batchTimestamp)),
              item, iss))
      (StampItem.mk iss.batchID addr
        (indexToBytes (ToBucket iss.bucketDepth addr) 0) (unixTime now))
  | StoreGetResult.found _ =>
      match StampIssuer.increment iss now addr with
      | Except.error e => Except.error e
      | Except.ok (idx, ts, iss') =>
          match putErr with
          | some e => Except.error (StampErr.putFailed e)
          | none =>
              Except.ok (NewStamp iss.batchID idx ts
                (signer (ToSignDigest h addr iss.batchID idx ts)),
                StampItem.mk iss.batchID addr idx ts, iss')
  | StoreGetResult.err e => Except.error (StampErr.wrappedGet e)

/- ------------------------------------------------------------------
   Presigned stamper (lines 394-420).
   ------------------------------------------------------------------ -/

inductive PresignErr
  | invalidBatchSignature
  | other (code : Nat)
deriving DecidableEq

-- `(*presignedStamper).Stamp` (lines 403-416); `recover` models
-- `RecoverBatchOwner`, an external cryptographic recovery.
def presignedStamperStamp (recover : List Nat → Stamp → Except Nat (List Nat))
    (owner : List Nat) (st : Stamp) (addr : List Nat) : Except PresignErr Stamp :=
  match recover addr st with
  | Except.error e => Except.error (PresignErr.other e)
  | Except.ok signerAddr =>
      if owner = signerAddr then Except.ok st
      else Except.error PresignErr.invalidBatchSignature

/- ------------------------------------------------------------------
   Lock/store event trace of `stamper.Stamp` (lines 333-345 and the body),
   used for the critical-section ordering claim.
   ------------------------------------------------------------------ -/

inductive StampEvent
  | issuerMtxLock
  | issuerMtxUnlock
  | stampLockerLock (key : List Nat)
  | stampLockerUnlock (key : List Nat)
  | storeGet
  | storePut
  | issuerIncrement
  | signDigest
deriving DecidableEq

def hexDigit (n : Nat) : Nat := if n < 10 then 48 + n else 87 + (n - 10)

def hexBytes (l : List Nat) : List Nat :=
  l.foldr (fun b acc => hexDigit (b / 16 % 16) :: hexDigit (b % 16) :: acc) []

-- `lockKey := fmt.Sprintf("postageIdStamp-%x", batchID)` (line 341), as bytes.
def stampLockKey (batchID : List Nat) : List Nat :=
  ("postageIdStamp-".toList.map Char.toNat) ++ hexBytes batchID

-- The ordered lock, store and signing events of one `stamper.Stamp` call:
-- issuer mutex (line 334), then the keyed batch lock (line 343), then the
-- store lookup and branch work; the deferred unlocks run in reverse order of
-- their registration (lines 335 and 344).  `incrOk`/`putOk` select the error
-- paths of `increment` and `store.Put` (each returns early, defers still run).
def StampTrace (batchID : List Nat) (getRes : StoreGetResult)
    (incrOk putOk : Bool) : List StampEvent :=
  [StampEvent.issuerMtxLock, StampEvent.stampLockerLock (stampLockKey batchID),
   StampEvent.storeGet] ++
  (match getRes with
   | StoreGetResult.err _ => []
   | StoreGetResult.notFound =>
       StampEvent.storePut :: (if putOk then [StampEvent.signDigest] else [])
   | StoreGetResult.found _ =>
       StampEvent.issuerIncrement ::
         (if incrOk then
            StampEvent.storePut :: (if putOk then [StampEvent.signDigest] else [])
          else [])) ++
  [StampEvent.stampLockerUnlock (stampLockKey batchID), StampEvent.issuerMtxUnlock]

/-- Encodes the ordering asserted by the claim (keyed batch lock acquired
first, issuer mutex second); compared against the trace of the source. -/
def claimC8Order (batchID : List Nat) (tr : List StampEvent) : Prop :=
  tr.take 2 = [StampEvent.stampLockerLock (stampLockKey batchID), StampEvent.issuerMtxLock]

/- ------------------------------------------------------------------
   Cancellation signals of the sampler pipeline.
   ------------------------------------------------------------------ -/

inductive CancelSignal
  | ctxDone
  | dbClosed
  | samplerStopped
deriving DecidableEq

inductive SamplerAbort
  | ctxCanceled
  | errDbClosed
  | errSamplerStopped
deriving DecidableEq

-- The select cases of Stage A's send of an iterated address (lines 514-523):
-- `addrChan <- ...`, `<-ctx.Done()`, `<-db.close`.
def stageASendSignals : List CancelSignal :=
  [CancelSignal.ctxDone, CancelSignal.dbClosed]

-- The select cases of Stage B's send of a transformed entry (lines 569-578):
-- `sampleItemChan <- ...`, `<-ctx.Done()`, `<-db.close`, `<-db.samplerSignal`.
def stageBSendSignals : List CancelSignal :=
  [CancelSignal.ctxDone, CancelSignal.dbClosed, CancelSignal.samplerStopped]

def allCancelSignals : List CancelSignal :=
  [CancelSignal.ctxDone, CancelSignal.dbClosed, CancelSignal.samplerStopped]

-- The error a Stage A select case returns (`ctx.Err()` / `errDbClosed`);
-- the sampler-stop signal has no case there.
def stageASignalError : CancelSignal → Option SamplerAbort
  | CancelSignal.ctxDone => some SamplerAbort.ctxCanceled
  | CancelSignal.dbClosed => some SamplerAbort.errDbClosed
  | CancelSignal.samplerStopped => none

-- The error a Stage B select case returns (lines 572-577).
def stageBSignalError : CancelSignal → Option SamplerAbort
  | CancelSignal.ctxDone => some SamplerAbort.ctxCanceled
  | CancelSignal.dbClosed => some SamplerAbort.errDbClosed
  | CancelSignal.samplerStopped => some SamplerAbort.errSamplerStopped

/-- Encodes the claim: every blocking send of Stage A and Stage B selects over
all three termination signals. -/
def claimC9AllSignals : Prop :=
  (∀ s ∈ allCancelSignals, s ∈ stageASendSignals) ∧
  (∀ s ∈ allCancelSignals, s ∈ stageBSendSignals)

/- ------------------------------------------------------------------
   The package-level chunk-validity function variable (lines 718-725).
   ------------------------------------------------------------------ -/

-- `var validChunkFn func(swarm.Chunk) bool`: declared and never assigned in
-- this source, so its value is the nil function, modelled as `none`.
def validChunkFn : Option (SwarmChunk → Bool) := none

-- `func validChunk(ch swarm.Chunk) bool` (lines 720-725); `cac.Valid` and
-- `soc.Valid` are external validity predicates, abstracted as parameters.
def validChunk (cacValid socValid : SwarmChunk → Bool) (ch : SwarmChunk) : Bool :=
  if !cacValid ch && !socValid ch then false else true

/- ------------------------------------------------------------------
   Claim-level spec encodings and concrete inputs for counterexamples and
   witnesses.
   ------------------------------------------------------------------ -/

/-- Encodes the ordering asserted by the claim for the sample buffer:
strictly ascending by transformed address, ties broken by the original chunk
address. -/
def claimC2Ord (a b : SampleEntry) : Prop :=
  le a.transformedAddress b.transformedAddress = true ∨
    (a.transformedAddress = b.transformedAddress ∧
      le a.chunkItem.address b.chunkItem.address = true)

def exC2a : SampleEntry := ⟨[5], ⟨[2], [], [], [], [], []⟩⟩

def exC2b : SampleEntry := ⟨[5], ⟨[1], [], [], [], [], []⟩⟩

def exC3a : SampleEntry := ⟨[7], ⟨[1], [], [], [], [], []⟩⟩

def exC3b : SampleEntry := ⟨[7], ⟨[2], [], [], [], [], []⟩⟩

def exC3c : SampleEntry := ⟨[3], ⟨[1], [], [], [], [], []⟩⟩

def exC3d : SampleEntry := ⟨[9], ⟨[2], [], [], [], [], []⟩⟩

def exC10e : SampleEntry := ⟨[1], ⟨[4], [], [], [], [], []⟩⟩

def alwaysTrueStamp : SwarmChunk → List Nat → Bool := fun _ _ => true

def alwaysTrueChunk : SwarmChunk → Bool := fun _ => true

-- Sixteen concrete one-chunk records with 32-byte addresses.
def exC1stream : List (Option ChunkItem) :=
  (List.range 16).map (fun k => some ⟨List.replicate 32 k, [k], [], [], [], []⟩)

def constHash32 : List Nat → List Nat := fun _ => List.replicate 32 0

-- Bool check that a stream element carries a 32-byte address.
def addrLen32 (oc : Option ChunkItem) : Bool :=
  match oc with
  | none => true
  | some c => c.address.length == 32

def exC6iss : StampIssuer := ⟨[9], 3, 1, [0, 0]⟩

def exC7stamp : Stamp := ⟨[], [], [], []⟩

def exC7recover : List Nat → Stamp → Except Nat (List Nat) :=
  fun _ _ => Except.ok [3]

/- ------------------------------------------------------------------
   Order theory of the byte comparison.
   ------------------------------------------------------------------ -/

theorem bytesCompare_self (a : List Nat) : bytesCompare a a = 0 := by
  induction a with
  | nil => rfl
  | cons x t ih => simp [bytesCompare, ih]

theorem bytesCompare_eq_zero_iff (a b : List Nat) : bytesCompare a b = 0 ↔ a = b := by
  induction a generalizing b with
  | nil => cases b <;> simp [bytesCompare]
  | cons x t ih =>
      cases b with
      | nil => simp [bytesCompare]
      | cons y u =>
          simp only [bytesCompare]
          split_ifs with h1 h2
          · constructor
            · intro h; exact absurd h (by decide)
            · intro h; rw [List.cons.injEq] at h; omega
          · constructor
            · intro h; exact absurd h (by decide)
            · intro h; rw [List.cons.injEq] at h; omega
          · have hxy : x = y := by omega
            subst hxy
            rw [ih u]
            constructor
            · intro h; rw [h]
            · intro h; rw [List.cons.injEq] at h; exact h.2

theorem bytesCompare_cases (a b : List Nat) :
    bytesCompare a b = -1 ∨ bytesCompare a b = 0 ∨ bytesCompare a b = 1 := by
  induction a generalizing b with
  | nil => cases b <;> simp [bytesCompare]
  | cons x t ih =>
      cases b with
      | nil => simp [bytesCompare]
      | cons y u =>
          simp only [bytesCompare]
          split_ifs <;> simp [ih u]

theorem bytesCompare_swap (a b : List Nat) : bytesCompare b a = - bytesCompare a b := by
  induction a generalizing b with
  | nil => cases b <;> simp [bytesCompare]
  | cons x t ih =>
      cases b with
      | nil => simp [bytesCompare]
      | cons y u =>
          simp only [bytesCompare]
          split_ifs <;> first | omega | exact ih u

theorem bytesCompare_trans_neg {a b c : List Nat}
    (h1 : bytesCompare a b = -1) (h2 : bytesCompare b c = -1) :
    bytesCompare a c = -1 := by
  induction a generalizing b c with
  | nil =>
      cases b with
      | nil => simp only [bytesCompare] at h1; omega
      | cons y u =>
          cases c with
          | nil => simp only [bytesCompare] at h2; omega
          | cons z w => rfl
  | cons x t ih =>
      cases b with
      | nil => simp only [bytesCompare] at h1; omega
      | cons y u =>
          cases c with
          | nil => simp only [bytesCompare] at h2; omega
          | cons z w =>
              simp only [bytesCompare] at h1 h2 ⊢
              by_cases hxy : x < y
              · by_cases hyz : y < z
                · rw [if_pos (by omega : x < z)]
                · rw [if_neg hyz] at h2
                  by_cases hzy : z < y
                  · rw [if_pos hzy] at h2; omega
                  · rw [if_pos (by omega : x < z)]
              · rw [if_neg hxy] at h1
                by_cases hyx : y < x
                · rw [if_pos hyx] at h1; omega
                · rw [if_neg hyx] at h1
                  by_cases hyz : y < z
                  · rw [if_pos (by omega : x < z)]
                  · rw [if_neg hyz] at h2
                    by_cases hzy : z < y
                    · rw [if_pos hzy] at h2; omega
                    · rw [if_neg hzy] at h2
                      rw [if_neg (by omega : ¬ x < z), if_neg (by omega : ¬ z < x)]
                      exact ih h1 h2

theorem le_iff {a b : List Nat} : le a b = true ↔ bytesCompare a b = -1 := by
  simp [le]

theorem le_self (a : List Nat) : le a a = false := by
  simp [le, bytesCompare_self]

theorem le_asymm {a b : List Nat} (h : le a b = true) : le b a = false := by
  rw [le_iff] at h
  have hs := bytesCompare_swap a b
  rw [h] at hs
  simp [le, hs]

theorem le_trans_lt {a b c : List Nat} (h1 : le a b = true) (h2 : le b c = true) :
    le a c = true := by
  rw [le_iff] at h1 h2 ⊢
  exact bytesCompare_trans_neg h1 h2

theorem not_lt_cases {a b : List Nat} (h : le a b = false) :
    a = b ∨ le b a = true := by
  rcases bytesCompare_cases a b with h1 | h1 | h1
  · have : le a b = true := by simp [le, h1]
    rw [h] at this
    exact absurd this (by decide)
  · exact Or.inl ((bytesCompare_eq_zero_iff a b).1 h1)
  · have hs := bytesCompare_swap a b
    rw [h1] at hs
    exact Or.inr (by simp [le, hs])

theorem keyLe_refl (a : List Nat) : keyLe a a := le_self a

theorem keyLe_of_lt {a b : List Nat} (h : le a b = true) : keyLe a b := le_asymm h

theorem keyLe_antisymm {a b : List Nat} (h1 : keyLe a b) (h2 : keyLe b a) : a = b := by
  rcases not_lt_cases h2 with he | hl
  · exact he
  · rw [keyLe] at h1
    rw [h1] at hl
    exact absurd hl (by decide)

theorem lt_of_lt_of_keyLe {a b c : List Nat} (h1 : le a b = true) (h2 : keyLe b c) :
    le a c = true := by
  rcases not_lt_cases h2 with he | hl
  · rw [he]; exact h1
  · exact le_trans_lt h1 hl

theorem keyLe_trans {a b c : List Nat} (h1 : keyLe a b) (h2 : keyLe b c) : keyLe a c := by
  cases hv : le c a with
  | false => exact hv
  | true =>
      have hcb := lt_of_lt_of_keyLe hv h1
      rw [keyLe] at h2
      rw [h2] at hcb
      exact absurd hcb (by decide)

theorem keyLe_total (a b : List Nat) : keyLe a b ∨ keyLe b a := by
  cases hv : le b a with
  | false => exact Or.inl hv
  | true => exact Or.inr (le_asymm hv)

/- ------------------------------------------------------------------
   Boolean helpers.
   ------------------------------------------------------------------ -/

theorem bool_ne_true {b : Bool} (h : ¬ b = true) : b = false := by
  cases b with
  | false => rfl
  | true => exact absurd rfl h

theorem bool_not_true {b : Bool} (h : b = false) : ¬ b = true := by
  rw [h]; decide

/- ------------------------------------------------------------------
   Sortedness and permutation facts for the value-level insert.
   ------------------------------------------------------------------ -/

theorem vInsert_perm (v : List Nat) (l : List (List Nat)) :
    List.Perm (vInsert v l) (v :: l) := by
  induction l with
  | nil => exact List.Perm.refl _
  | cons w t ih =>
      simp only [vInsert]
      by_cases hvw : le v w = true
      · rw [if_pos hvw]
      · rw [if_neg hvw]
        exact (List.Perm.cons w ih).trans (List.Perm.swap v w t)

theorem vInsert_mem {x v : List Nat} {l : List (List Nat)} :
    x ∈ vInsert v l ↔ x = v ∨ x ∈ l := by
  rw [(vInsert_perm v l).mem_iff]
  simp

theorem vInsert_sorted {v : List Nat} {l : List (List Nat)}
    (h : List.Sorted keyLe l) : List.Sorted keyLe (vInsert v l) := by
  induction l with
  | nil => simp [vInsert]
  | cons w t ih =>
      rw [List.sorted_cons] at h
      obtain ⟨hw, ht⟩ := h
      simp only [vInsert]
      by_cases hvw : le v w = true
      · rw [if_pos hvw]
        rw [List.sorted_cons]
        refine ⟨?_, ?_⟩
        · intro b hb
          rcases List.mem_cons.mp hb with rfl | hbt
          · exact keyLe_of_lt hvw
          · exact keyLe_trans (keyLe_of_lt hvw) (hw b hbt)
        · rw [List.sorted_cons]; exact ⟨hw, ht⟩
      · rw [if_neg hvw]
        rw [List.sorted_cons]
        refine ⟨?_, ih ht⟩
        intro b hb
        rcases vInsert_mem.mp hb with rfl | hbt
        · exact bool_ne_true hvw
        · exact hw b hbt

theorem sortLe_sorted_aux (l : List (List Nat)) :
    ∀ acc, List.Sorted keyLe acc →
      List.Sorted keyLe (List.foldl (fun s v => vInsert v s) acc l) := by
  induction l with
  | nil => intro acc ha; exact ha
  | cons v t ih =>
      intro acc ha
      simp only [List.foldl]
      exact ih _ (vInsert_sorted ha)

theorem sortLe_sorted (l : List (List Nat)) : List.Sorted keyLe (sortLe l) :=
  sortLe_sorted_aux l [] List.sorted_nil

theorem sortLe_perm_aux (l : List (List Nat)) :
    ∀ acc, List.Perm (List.foldl (fun s v => vInsert v s) acc l) (acc ++ l) := by
  induction l with
  | nil => intro acc; simp
  | cons v t ih =>
      intro acc
      simp only [List.foldl]
      exact ((ih _).trans ((vInsert_perm v acc).append_right t)).trans
        List.perm_middle.symm

theorem sortLe_perm (l : List (List Nat)) : List.Perm (sortLe l) l := by
  simpa using sortLe_perm_aux l []

theorem sortLe_length (l : List (List Nat)) : (sortLe l).length = l.length :=
  (sortLe_perm l).length_eq

/- ------------------------------------------------------------------
   Interaction of truncation with the value-level insert.
   ------------------------------------------------------------------ -/

theorem take_cons_take {α : Type} (w : α) (t : List α) (m : Nat) :
    (w :: t.take m).take m = (w :: t).take m := by
  cases m with
  | zero => simp
  | succ k =>
      simp only [List.take_succ_cons, List.take_take]
      rw [min_eq_left (Nat.le_succ k)]

theorem take_vInsert_of_ge {v : List Nat} :
    ∀ (l : List (List Nat)) (n : Nat), n ≤ l.length →
      (∀ w ∈ l.take n, le v w = false) →
      (vInsert v l).take n = l.take n := by
  intro l
  induction l with
  | nil =>
      intro n hn _
      have h0 : n = 0 := Nat.le_zero.mp hn
      subst h0
      simp
  | cons w t ih =>
      intro n hn hall
      cases n with
      | zero => simp
      | succ m =>
          have hvw : le v w = false := hall w (by simp)
          simp only [vInsert]
          rw [if_neg (bool_not_true hvw)]
          have hlen : m ≤ t.length := by
            simp only [List.length_cons] at hn; omega
          have hall' : ∀ x ∈ t.take m, le v x = false := by
            intro x hx
            exact hall x (by rw [List.take_succ_cons]; exact List.mem_cons_of_mem _ hx)
          rw [List.take_succ_cons, List.take_succ_cons, ih m hlen hall']

theorem take_vInsert_of_lt {v : List Nat} :
    ∀ (l : List (List Nat)) (n : Nat),
      (∃ w ∈ l.take n, le v w = true) →
      (vInsert v l).take n = (vInsert v (l.take n)).take n := by
  intro l
  induction l with
  | nil =>
      intro n h
      obtain ⟨w, hw, _⟩ := h
      simp at hw
  | cons w t ih =>
      intro n h
      cases n with
      | zero => simp
      | succ m =>
          rw [List.take_succ_cons]
          simp only [vInsert]
          by_cases hvw : le v w = true
          · rw [if_pos hvw, if_pos hvw]
            rw [List.take_succ_cons, List.take_succ_cons]
            rw [take_cons_take]
          · rw [if_neg hvw, if_neg hvw]
            rw [List.take_succ_cons, List.take_succ_cons]
            obtain ⟨x, hx, hlt⟩ := h
            rw [List.take_succ_cons] at hx
            rcases List.mem_cons.mp hx with rfl | hxm
            · exact absurd hlt hvw
            · rw [ih m ⟨x, hxm, hlt⟩]

/- ------------------------------------------------------------------
   The Go insert equals truncated sorted insert.
   ------------------------------------------------------------------ -/

theorem vInsertScan_snd_true {v : List Nat} :
    ∀ {cur : List (List Nat)}, (vInsertScan v cur).2 = true →
      (vInsertScan v cur).1 = vInsert v cur := by
  intro cur
  induction cur with
  | nil => intro h; simp [vInsertScan] at h
  | cons w t ih =>
      intro h
      simp only [vInsertScan, vInsert] at *
      by_cases hvw : le v w = true
      · rw [if_pos hvw]
        rw [if_pos hvw] at h ⊢
      · rw [if_neg hvw] at h ⊢
        rw [if_neg hvw]
        simp only at h ⊢
        rw [ih h]

theorem vInsertScan_snd_false {v : List Nat} :
    ∀ {cur : List (List Nat)}, (vInsertScan v cur).2 = false →
      (vInsertScan v cur).1 = cur ∧ ∀ w ∈ cur, le v w = false := by
  intro cur
  induction cur with
  | nil => intro _; exact ⟨rfl, by simp⟩
  | cons w t ih =>
      intro h
      simp only [vInsertScan] at *
      by_cases hvw : le v w = true
      · rw [if_pos hvw] at h
        simp at h
      · rw [if_neg hvw] at h ⊢
        simp only at h ⊢
        obtain ⟨h1, h2⟩ := ih h
        refine ⟨by rw [h1], ?_⟩
        intro x hx
        rcases List.mem_cons.mp hx with rfl | hxm
        · exact bool_ne_true hvw
        · exact h2 x hxm

theorem vInsert_of_all_ge {v : List Nat} {cur : List (List Nat)}
    (hall : ∀ w ∈ cur, le v w = false) : vInsert v cur = cur ++ [v] := by
  induction cur with
  | nil => rfl
  | cons w t ih =>
      simp only [vInsert]
      rw [if_neg (bool_not_true (hall w (by simp)))]
      rw [ih (fun x hx => hall x (List.mem_cons_of_mem _ hx))]
      rfl

theorem vInsertGo_eq_take {v : List Nat} {cur : List (List Nat)}
    (hlen : cur.length ≤ sampleSize) :
    vInsertGo v cur = (vInsert v cur).take sampleSize := by
  by_cases hs : (vInsertScan v cur).2 = true
  · have hfst := vInsertScan_snd_true hs
    have hvlen : (vInsert v cur).length = cur.length + 1 := by
      rw [(vInsert_perm v cur).length_eq]; rfl
    simp only [vInsertGo, hs, hfst, Bool.not_true, Bool.and_false]
    rw [if_neg (show ¬ ((false : Bool) = true) by decide)]
    by_cases hgt : sampleSize < (vInsert v cur).length
    · rw [if_pos (decide_eq_true hgt)]
    · rw [if_neg (by simpa using hgt)]
      rw [List.take_of_length_le (by omega)]
  · have hs' := bool_ne_true hs
    obtain ⟨hfst, hall⟩ := vInsertScan_snd_false hs'
    rw [vInsert_of_all_ge hall]
    simp only [vInsertGo, hs', hfst, Bool.not_false, Bool.and_true]
    rw [if_neg (show ¬ (decide (sampleSize < cur.length) = true) by simpa using (by omega : ¬ sampleSize < cur.length))]
    by_cases h2 : cur.length < sampleSize
    · rw [if_pos (decide_eq_true h2)]
      rw [List.take_of_length_le (by simp only [List.length_append, List.length_cons, List.length_nil]; omega)]
    · rw [if_neg (by simpa using h2)]
      have hl16 : cur.length = sampleSize := by omega
      rw [List.take_append_of_le_length (by omega), List.take_of_length_le (by omega)]

/- ------------------------------------------------------------------
   getLast? helpers and the maximality of the last element.
   ------------------------------------------------------------------ -/

theorem getLastQ_mem {α : Type} : ∀ {l : List α} {m : α}, l.getLast? = some m → m ∈ l := by
  intro l
  induction l with
  | nil => intro m h; simp at h
  | cons a t ih =>
      intro m h
      cases t with
      | nil =>
          rw [List.getLast?_singleton] at h
          injection h with h'
          subst h'
          simp
      | cons b u =>
          rw [List.getLast?_cons_cons] at h
          exact List.mem_cons_of_mem a (ih h)

theorem getLastQ_map {α β : Type} (f : α → β) :
    ∀ (l : List α), (l.map f).getLast? = (l.getLast?).map f := by
  intro l
  induction l with
  | nil => rfl
  | cons a t ih =>
      cases t with
      | nil => rfl
      | cons b u =>
          simp only [List.map_cons, List.getLast?_cons_cons]
          simpa using ih

theorem sorted_last_max :
    ∀ {l : List (List Nat)}, List.Sorted keyLe l →
      ∀ {m : List Nat}, l.getLast? = some m → ∀ w ∈ l, keyLe w m := by
  intro l
  induction l with
  | nil => intro _ m hm; simp at hm
  | cons a t ih =>
      intro hs m hm w hw
      cases t with
      | nil =>
          rw [List.getLast?_singleton] at hm
          injection hm with hm'
          subst hm'
          rcases List.mem_cons.mp hw with rfl | h0
          · exact keyLe_refl w
          · simp at h0
      | cons b u =>
          rw [List.getLast?_cons_cons] at hm
          rw [List.sorted_cons] at hs
          obtain ⟨ha, hs'⟩ := hs
          rcases List.mem_cons.mp hw with rfl | hwt
          · exact ha m (getLastQ_mem hm)
          · exact ih hs' hm w hwt

/- ------------------------------------------------------------------
   One Stage C step preserves the top-k characterisation (value level).
   ------------------------------------------------------------------ -/

theorem topk_append_single (V : List (List Nat)) (v : List Nat) :
    sortLe (V ++ [v]) = vInsert v (sortLe V) := by
  simp [sortLe, List.foldl_append]

theorem stepVal_topk (V : List (List Nat)) (v : List Nat) :
    stepVal (topk V) v = topk (V ++ [v]) := by
  have hS := sortLe_sorted V
  have hsorteq : sortLe (V ++ [v]) = vInsert v (sortLe V) := topk_append_single V v
  by_cases hlen : (sortLe V).length < sampleSize
  · have htop : topk V = sortLe V := by
      unfold topk; exact List.take_of_length_le (le_of_lt hlen)
    have hcond :
        (le v (vCurrentMax (topk V)) || decide ((topk V).length < sampleSize)) = true := by
      rw [htop]
      simp [hlen]
    unfold stepVal
    rw [if_pos hcond]
    rw [htop]
    rw [vInsertGo_eq_take (le_of_lt hlen)]
    unfold topk
    rw [hsorteq]
  · push_neg at hlen
    have hcurlen : (topk V).length = sampleSize := by
      unfold topk
      rw [List.length_take]
      omega
    have hne : topk V ≠ [] := by
      intro h0
      rw [h0] at hcurlen
      simp [sampleSize] at hcurlen
    obtain ⟨m, hm⟩ : ∃ m, (topk V).getLast? = some m := by
      cases hgl : (topk V).getLast? with
      | none => exact absurd (List.getLast?_eq_none_iff.mp hgl) hne
      | some x => exact ⟨x, rfl⟩
    have hmax : vCurrentMax (topk V) = m := by
      unfold vCurrentMax
      rw [hm]
    have hsorted_top : List.Sorted keyLe (topk V) := by
      unfold topk; exact List.Pairwise.sublist (List.take_sublist _ _) hS
    have hmmem : m ∈ topk V := getLastQ_mem hm
    by_cases hv : le v m = true
    · have hcond :
          (le v (vCurrentMax (topk V)) || decide ((topk V).length < sampleSize)) = true := by
        rw [hmax, hv]
        simp
      unfold stepVal
      rw [if_pos hcond]
      rw [vInsertGo_eq_take (le_of_eq hcurlen)]
      unfold topk
      rw [hsorteq]
      exact (take_vInsert_of_lt (sortLe V) sampleSize
        ⟨m, by simpa [topk] using hmmem, hv⟩).symm
    · have hvf : le v m = false := bool_ne_true hv
      have hcond :
          (le v (vCurrentMax (topk V)) || decide ((topk V).length < sampleSize)) = false := by
        rw [hmax, hvf, hcurlen]
        simp [sampleSize]
      unfold stepVal
      rw [if_neg (bool_not_true hcond)]
      unfold topk
      rw [hsorteq]
      refine (take_vInsert_of_ge (sortLe V) sampleSize hlen ?_).symm
      intro w hw
      have hwm : keyLe w m := sorted_last_max hsorted_top hm w (by simpa [topk] using hw)
      by_cases hlw : le v w = true
      · have hcontra := lt_of_lt_of_keyLe hlw hwm
        rw [hvf] at hcontra
        exact absurd hcontra (by decide)
      · exact bool_ne_true hlw

/- ------------------------------------------------------------------
   The entry-level Stage C step projects onto the value-level step.
   ------------------------------------------------------------------ -/

theorem insertScan_image (e : SampleEntry) :
    ∀ (s : List SampleEntry),
      (insertScan e s).1.map (fun x => x.transformedAddress) =
        (vInsertScan e.transformedAddress (s.map (fun x => x.transformedAddress))).1 ∧
      (insertScan e s).2 =
        (vInsertScan e.transformedAddress (s.map (fun x => x.transformedAddress))).2 := by
  intro s
  induction s with
  | nil => exact ⟨rfl, rfl⟩
  | cons w t ih =>
      simp only [insertScan, List.map_cons, vInsertScan]
      by_cases h : le e.transformedAddress w.transformedAddress = true
      · rw [if_pos h, if_pos h]
        exact ⟨rfl, rfl⟩
      · rw [if_neg h, if_neg h]
        simp only [List.map_cons]
        exact ⟨by rw [ih.1], ih.2⟩

theorem insert_image (e : SampleEntry) (s : List SampleEntry) :
    (insert e s).map (fun x => x.transformedAddress) =
      vInsertGo e.transformedAddress (s.map (fun x => x.transformedAddress)) := by
  obtain ⟨h1, h2⟩ := insertScan_image e s
  simp only [insert, vInsertGo, ← h1, ← h2, List.length_map]
  by_cases hgt : sampleSize < (insertScan e s).1.length
  · rw [if_pos (decide_eq_true hgt), if_pos (decide_eq_true hgt)]
    simp only [List.length_take, List.length_map]
    split_ifs with hc
    · simp [List.map_append, List.map_take]
    · simp [List.map_take]
  · rw [if_neg (bool_not_true (decide_eq_false hgt)),
      if_neg (bool_not_true (decide_eq_false hgt))]
    simp only [List.length_map]
    split_ifs with hc
    · simp [List.map_append]
    · rfl

theorem currentMaxAddr_image (s : List SampleEntry) :
    currentMaxAddr s = vCurrentMax (s.map (fun x => x.transformedAddress)) := by
  unfold currentMaxAddr vCurrentMax
  rw [getLastQ_map]
  cases hgl : s.getLast? with
  | none => rfl
  | some x => rfl

theorem stageCStep_image (vs : SwarmChunk → List Nat → Bool) (vcf : SwarmChunk → Bool)
    (s : List SampleEntry) (e : SampleEntry) :
    (stageCStep vs vcf s e).map (fun x => x.transformedAddress) =
      (if eligEntry vs vcf e = true then
        stepVal (s.map (fun x => x.transformedAddress)) e.transformedAddress
       else s.map (fun x => x.transformedAddress)) := by
  unfold stageCStep stepVal
  rw [currentMaxAddr_image]
  simp only [List.length_map]
  by_cases hpre :
      (le e.transformedAddress (vCurrentMax (s.map (fun x => x.transformedAddress))) ||
        decide (s.length < sampleSize)) = true
  · rw [if_pos hpre, if_pos hpre]
    by_cases helig : eligEntry vs vcf e = true
    · rw [if_pos helig, if_pos helig]
      exact insert_image e s
    · rw [if_neg helig, if_neg helig]
  · rw [if_neg hpre, if_neg hpre]
    rw [ite_self]

/- ------------------------------------------------------------------
   The Stage C loop computes the top-k of the eligible transformed
   addresses.
   ------------------------------------------------------------------ -/

theorem foldStep_topk (vs : SwarmChunk → List Nat → Bool) (vcf : SwarmChunk → Bool) :
    ∀ (entries : List SampleEntry) (s : List SampleEntry) (V : List (List Nat)),
      s.map (fun x => x.transformedAddress) = topk V →
      (List.foldl (stageCStep vs vcf) s entries).map (fun x => x.transformedAddress) =
        topk (V ++ (entries.filter (eligEntry vs vcf)).map (fun x => x.transformedAddress)) := by
  intro entries
  induction entries with
  | nil => intro s V h; simpa using h
  | cons e rest ih =>
      intro s V h
      simp only [List.foldl]
      by_cases helig : eligEntry vs vcf e = true
      · have hstep : (stageCStep vs vcf s e).map (fun x => x.transformedAddress) =
            topk (V ++ [e.transformedAddress]) := by
          rw [stageCStep_image, if_pos helig, h, stepVal_topk]
        rw [ih (stageCStep vs vcf s e) (V ++ [e.transformedAddress]) hstep]
        rw [List.filter_cons_of_pos helig]
        simp [List.append_assoc]
      · have hstep : (stageCStep vs vcf s e).map (fun x => x.transformedAddress) = topk V := by
          rw [stageCStep_image, if_neg helig, h]
        rw [ih (stageCStep vs vcf s e) V hstep]
        rw [List.filter_cons_of_neg (by simp [helig])]

theorem stageCStepOpt_some (vs : SwarmChunk → List Nat → Bool) (vcf : SwarmChunk → Bool)
    (s : List SampleEntry) (e : SampleEntry) :
    stageCStepOpt vs (some vcf) s e = some (stageCStep vs vcf s e) := by
  simp only [stageCStepOpt, stageCStep, eligEntry]
  split_ifs <;> first | rfl | simp_all

theorem sampleItemsRun_some (vs : SwarmChunk → List Nat → Bool) (vcf : SwarmChunk → Bool) :
    ∀ (entries : List SampleEntry) (s : List SampleEntry),
      List.foldlM (stageCStepOpt vs (some vcf)) s entries =
        some (List.foldl (stageCStep vs vcf) s entries) := by
  intro entries
  induction entries with
  | nil => intro s; rfl
  | cons e rest ih =>
      intro s
      rw [List.foldlM_cons, stageCStepOpt_some]
      exact ih (stageCStep vs vcf s e)

theorem sampleItemsRun_eq (vs : SwarmChunk → List Nat → Bool) (vcf : SwarmChunk → Bool)
    (entries : List SampleEntry) :
    sampleItemsRun vs (some vcf) entries =
      some (List.foldl (stageCStep vs vcf) [] entries) :=
  sampleItemsRun_some vs vcf entries []

/- ------------------------------------------------------------------
   Membership facts: every buffered item came from the input entries and
   passed the validity checks.
   ------------------------------------------------------------------ -/

theorem mem_insertScan_fst {x e : SampleEntry} :
    ∀ {s : List SampleEntry}, x ∈ (insertScan e s).1 → x = e ∨ x ∈ s := by
  intro s
  induction s with
  | nil => intro h; simp [insertScan] at h
  | cons w t ih =>
      intro h
      simp only [insertScan] at h
      by_cases hvw : le e.transformedAddress w.transformedAddress = true
      · rw [if_pos hvw] at h
        rcases List.mem_cons.mp h with rfl | h'
        · exact Or.inl rfl
        · exact Or.inr h'
      · rw [if_neg hvw] at h
        simp only at h
        rcases List.mem_cons.mp h with rfl | h'
        · exact Or.inr (List.mem_cons_self _ _)
        · rcases ih h' with rfl | h''
          · exact Or.inl rfl
          · exact Or.inr (List.mem_cons_of_mem _ h'')

theorem mem_insert {x e : SampleEntry} {s : List SampleEntry} (h : x ∈ insert e s) :
    x = e ∨ x ∈ s := by
  simp only [insert] at h
  split_ifs at h with hA hB hC
  · rcases List.mem_append.mp h with h' | h'
    · exact mem_insertScan_fst (List.mem_of_mem_take h')
    · simp at h'; exact Or.inl h'
  · exact mem_insertScan_fst (List.mem_of_mem_take h)
  · rcases List.mem_append.mp h with h' | h'
    · exact mem_insertScan_fst h'
    · simp at h'; exact Or.inl h'
  · exact mem_insertScan_fst h

theorem mem_stageCStep {vs : SwarmChunk → List Nat → Bool} {vcf : SwarmChunk → Bool}
    {s : List SampleEntry} {e x : SampleEntry}
    (h : x ∈ stageCStep vs vcf s e) :
    (x = e ∧ eligEntry vs vcf e = true) ∨ x ∈ s := by
  unfold stageCStep at h
  split_ifs at h with h1 h2
  · rcases mem_insert h with rfl | h'
    · exact Or.inl ⟨rfl, h2⟩
    · exact Or.inr h'
  · exact Or.inr h
  · exact Or.inr h

theorem mem_fold_stageC {vs : SwarmChunk → List Nat → Bool} {vcf : SwarmChunk → Bool} :
    ∀ {entries s : List SampleEntry} {x : SampleEntry},
      x ∈ List.foldl (stageCStep vs vcf) s entries →
      x ∈ s ∨ (x ∈ entries ∧ eligEntry vs vcf x = true) := by
  intro entries
  induction entries with
  | nil => intro s x h; exact Or.inl h
  | cons e rest ih =>
      intro s x h
      simp only [List.foldl] at h
      rcases ih h with hs | ⟨hr, hel⟩
      · rcases mem_stageCStep hs with ⟨rfl, hel⟩ | hss
        · exact Or.inr ⟨List.mem_cons_self _ _, hel⟩
        · exact Or.inl hss
      · exact Or.inr ⟨List.mem_cons_of_mem _ hr, hel⟩

theorem mem_stageB {trHash : List Nat → List Nat} {ct : Nat}
    {stream : List (Option ChunkItem)} {e : SampleEntry}
    (h : e ∈ stageB trHash ct stream) :
    ∃ c : ChunkItem, some c ∈ stream ∧ beUint64 c.timestamp ≤ ct ∧
      e = ⟨trHash c.data, c⟩ := by
  unfold stageB at h
  rw [List.mem_filterMap] at h
  obtain ⟨oc, hoc, hf⟩ := h
  cases oc with
  | none => simp at hf
  | some c =>
      simp only at hf
      by_cases ht : beUint64 c.timestamp > ct
      · rw [if_pos ht] at hf; simp at hf
      · rw [if_neg ht] at hf
        injection hf with hf'
        exact ⟨c, hoc, by omega, hf'.symm⟩

/- ------------------------------------------------------------------
   Length of the assembled content.
   ------------------------------------------------------------------ -/

theorem assembleContent_length_aux :
    ∀ (items : List SampleEntry) (acc : List Nat),
      (∀ it ∈ items, it.chunkItem.address.length = 32 ∧
        it.transformedAddress.length = 32) →
      (List.foldl (fun acc it => acc ++ it.chunkItem.address ++ it.transformedAddress)
        acc items).length = acc.length + 64 * items.length := by
  intro items
  induction items with
  | nil => intro acc _; simp
  | cons it rest ih =>
      intro acc hall
      simp only [List.foldl]
      rw [ih _ (fun x hx => hall x (List.mem_cons_of_mem _ hx))]
      have h2 := hall it (List.mem_cons_self _ _)
      simp only [List.length_append, h2.1, h2.2, List.length_cons]
      omega

theorem assembleContent_length (items : List SampleEntry)
    (hall : ∀ it ∈ items, it.chunkItem.address.length = 32 ∧
      it.transformedAddress.length = 32) :
    (assembleContent items).length = 64 * items.length := by
  unfold assembleContent
  rw [assembleContent_length_aux items [] hall]
  simp

theorem reserveSampleFromEntries_eq_of (bmtHash : List Nat → List Nat)
    (vs : SwarmChunk → List Nat → Bool) (vcfOpt : Option (SwarmChunk → Bool))
    (entries : List SampleEntry) (items : List SampleEntry)
    (h1 : sampleItemsRun vs vcfOpt entries = some items)
    (h2 : (assembleContent items).length ≤ 4096) :
    reserveSampleFromEntries bmtHash vs vcfOpt entries =
      some ⟨items, assembleContent items,
        bmtHash (le64 (assembleContent items).length ++ assembleContent items)⟩ := by
  unfold reserveSampleFromEntries
  rw [h1]
  simp only [Option.some_bind]
  unfold sampleOfItems cacNew
  rw [if_pos h2]
  rfl

/- ==================================================================
   Claim theorems.
   ================================================================== -/

/-- C1: Top-k correctness of the sampler.  Over any radius-restricted reserve
stream with at least 16 eligible chunks (present, stamp timestamp at most the
consensus time, stamp valid, chunk valid), `ReserveSample` succeeds, returns
exactly 16 items, and their `transformedAddress` values are the 16 smallest
keyed-hash values `trHash(chunk data)` over the eligible chunks, in ascending
order (`sortLe` produces an ascending permutation by `sortLe_sorted` and
`sortLe_perm`). -/
theorem reserveSample_topk_correct
    (trHash bmtHash : List Nat → List Nat) (vs : SwarmChunk → List Nat → Bool)
    (vcf : SwarmChunk → Bool) (ct : Nat) (stream : List (Option ChunkItem))
    (htr : ∀ x, (trHash x).length = 32)
    (haddr : ∀ oc ∈ stream, addrLen32 oc = true)
    (hN : sampleSize ≤ ((stageB trHash ct stream).filter (eligEntry vs vcf)).length) :
    ∃ smp : Sample,
      ReserveSample trHash bmtHash vs (some vcf) ct stream = some smp ∧
      smp.items.length = sampleSize ∧
      smp.items.map (fun x => x.transformedAddress) =
        (sortLe (((stageB trHash ct stream).filter (eligEntry vs vcf)).map
          (fun x => x.transformedAddress))).take sampleSize := by
  have htop := foldStep_topk vs vcf (stageB trHash ct stream) [] [] rfl
  simp only [List.nil_append] at htop
  set items := List.foldl (stageCStep vs vcf) [] (stageB trHash ct stream) with hitems
  have hlen : items.length = sampleSize := by
    have hl := congrArg List.length htop
    simp only [List.length_map] at hl
    rw [hl]
    unfold topk
    rw [List.length_take, sortLe_length, List.length_map]
    omega
  have hmem32 : ∀ it ∈ items, it.chunkItem.address.length = 32 ∧
      it.transformedAddress.length = 32 := by
    intro it hit
    rw [hitems] at hit
    rcases mem_fold_stageC hit with h0 | ⟨hent', _⟩
    · simp at h0
    · obtain ⟨c, hoc, _, heq⟩ := mem_stageB hent'
      subst heq
      constructor
      · have h32 := haddr (some c) hoc
        simp only [addrLen32, beq_iff_eq] at h32
        exact h32
      · exact htr c.data
  have hclen : (assembleContent items).length ≤ 4096 := by
    rw [assembleContent_length items hmem32, hlen]
    decide
  refine ⟨_, reserveSampleFromEntries_eq_of bmtHash vs (some vcf) _ items
    (by rw [hitems]; exact sampleItemsRun_eq vs vcf _) hclen, hlen, ?_⟩
  exact htop

/-- Witness for C1 at a concrete reserve of 16 chunks with 32-byte addresses. -/
theorem reserveSample_topk_correct_witness :
    (∀ x, (constHash32 x).length = 32) ∧
    (∀ oc ∈ exC1stream, addrLen32 oc = true) ∧
    sampleSize ≤ ((stageB constHash32 1 exC1stream).filter
      (eligEntry alwaysTrueStamp alwaysTrueChunk)).length ∧
    (∃ smp : Sample,
      ReserveSample constHash32 constHash32 alwaysTrueStamp (some alwaysTrueChunk)
        1 exC1stream = some smp ∧
      smp.items.length = sampleSize ∧
      smp.items.map (fun x => x.transformedAddress) =
        (sortLe (((stageB constHash32 1 exC1stream).filter
          (eligEntry alwaysTrueStamp alwaysTrueChunk)).map
          (fun x => x.transformedAddress))).take sampleSize) :=
  ⟨fun x => by simp [constHash32],
   by decide,
   by decide,
   reserveSample_topk_correct constHash32 constHash32 alwaysTrueStamp alwaysTrueChunk
     1 exC1stream (fun x => by simp [constHash32]) (by decide) (by decide)⟩

/-- C2 counterexample: inserting a tied entry with a smaller original chunk
address appends it after the existing one, so the buffer is neither strictly
ascending nor tie-broken by the original address. -/
theorem insert_tie_breaks_claim_order :
    List.Pairwise claimC2Ord [exC2a] ∧
    insert exC2b [exC2a] = [exC2a, exC2b] ∧
    ¬ List.Pairwise claimC2Ord [exC2a, exC2b] := by
  refine ⟨by simp, by decide, ?_⟩
  intro h
  rw [List.pairwise_cons] at h
  have hord := h.1 exC2b (by simp)
  rcases hord with h1 | ⟨h2, h3⟩
  · revert h1; decide
  · revert h3; decide

/-- C2 (amended): the sample buffer stays ascending (non-strict) by
`transformedAddress` — ties are kept in arrival order, not re-ordered by the
original chunk address — and its length never exceeds 16; both invariants are
preserved by every call of the Stage C `insert`. -/
theorem insert_preserves_sorted_le (e : SampleEntry) (s : List SampleEntry)
    (hs : List.Sorted keyLe (s.map (fun x => x.transformedAddress)))
    (hlen : s.length ≤ sampleSize) :
    List.Sorted keyLe ((insert e s).map (fun x => x.transformedAddress)) ∧
    (insert e s).length ≤ sampleSize := by
  have himg := insert_image e s
  constructor
  · rw [himg, vInsertGo_eq_take (by simpa using hlen)]
    exact List.Pairwise.sublist (List.take_sublist _ _) (vInsert_sorted hs)
  · have hl := congrArg List.length himg
    simp only [List.length_map] at hl
    rw [hl, vInsertGo_eq_take (by simpa using hlen), List.length_take]
    exact min_le_left _ _

/-- Witness for the amended C2 at a concrete insert into the empty buffer. -/
theorem insert_preserves_sorted_le_witness :
    List.Sorted keyLe ((insert exC2a []).map (fun x => x.transformedAddress)) ∧
    (insert exC2a []).length ≤ sampleSize :=
  insert_preserves_sorted_le exC2a [] (by simp) (by decide)

/-- C3 counterexample: permuting the delivery order of two eligible entries
with equal transformed addresses but different chunk addresses changes the
returned sample byte-for-byte. -/
theorem reserveSample_order_dependent_on_ties :
    List.Perm [exC3a, exC3b] [exC3b, exC3a] ∧
    reserveSampleFromEntries (fun x => x) alwaysTrueStamp (some alwaysTrueChunk)
      [exC3a, exC3b] ≠
    reserveSampleFromEntries (fun x => x) alwaysTrueStamp (some alwaysTrueChunk)
      [exC3b, exC3a] := by
  constructor
  · exact List.Perm.swap exC3b exC3a []
  · decide

theorem map_eq_of_inj {f : SampleEntry → List Nat} :
    ∀ (r1 r2 : List SampleEntry) (S : List SampleEntry),
      r1.map f = r2.map f →
      (∀ x ∈ r1, x ∈ S) → (∀ x ∈ r2, x ∈ S) →
      (∀ x ∈ S, ∀ y ∈ S, f x = f y → x = y) →
      r1 = r2 := by
  intro r1
  induction r1 with
  | nil =>
      intro r2 S h _ _ _
      cases r2 with
      | nil => rfl
      | cons b t => simp at h
  | cons a t ih =>
      intro r2 S h h1 h2 hinj
      cases r2 with
      | nil => simp at h
      | cons b u =>
          simp only [List.map_cons, List.cons.injEq] at h
          have hab : a = b := hinj a (h1 a (List.mem_cons_self _ _))
            b (h2 b (List.mem_cons_self _ _)) h.1
          subst hab
          rw [ih u S h.2 (fun x hx => h1 x (List.mem_cons_of_mem _ hx))
            (fun x hx => h2 x (List.mem_cons_of_mem _ hx)) hinj]

/-- C3 (amended): provided the transformed addresses of the eligible entries
are pairwise distinct (the spec states ties do not occur), the sample is
independent of the order in which Stage B workers deliver the entries, so two
runs over an identical, quiescent reserve return byte-for-byte identical
samples. -/
theorem reserveSample_deterministic
    (bmtHash : List Nat → List Nat) (vs : SwarmChunk → List Nat → Bool)
    (vcf : SwarmChunk → Bool) (el1 el2 : List SampleEntry)
    (hperm : List.Perm el1 el2)
    (hnodup : ((el1.filter (eligEntry vs vcf)).map
      (fun x => x.transformedAddress)).Nodup) :
    reserveSampleFromEntries bmtHash vs (some vcf) el1 =
    reserveSampleFromEntries bmtHash vs (some vcf) el2 := by
  have htop1 := foldStep_topk vs vcf el1 [] [] rfl
  have htop2 := foldStep_topk vs vcf el2 [] [] rfl
  simp only [List.nil_append] at htop1 htop2
  set items1 := List.foldl (stageCStep vs vcf) [] el1 with hi1
  set items2 := List.foldl (stageCStep vs vcf) [] el2 with hi2
  have hpermW : List.Perm
      ((el1.filter (eligEntry vs vcf)).map (fun x => x.transformedAddress))
      ((el2.filter (eligEntry vs vcf)).map (fun x => x.transformedAddress)) :=
    (hperm.filter _).map _
  have hsorteq :
      sortLe ((el1.filter (eligEntry vs vcf)).map (fun x => x.transformedAddress)) =
      sortLe ((el2.filter (eligEntry vs vcf)).map (fun x => x.transformedAddress)) := by
    haveI : IsAntisymm (List Nat) keyLe := ⟨fun a b hx hy => keyLe_antisymm hx hy⟩
    exact List.eq_of_perm_of_sorted
      ((sortLe_perm _).trans (hpermW.trans (sortLe_perm _).symm))
      (sortLe_sorted _) (sortLe_sorted _)
  have hmapeq : items1.map (fun x => x.transformedAddress) =
      items2.map (fun x => x.transformedAddress) := by
    rw [htop1, htop2]
    unfold topk
    rw [hsorteq]
  have hinj : ∀ x ∈ el1.filter (eligEntry vs vcf),
      ∀ y ∈ el1.filter (eligEntry vs vcf),
      x.transformedAddress = y.transformedAddress → x = y := by
    intro x hx y hy hxy
    exact List.inj_on_of_nodup_map hnodup hx hy hxy
  have hsub1 : ∀ x ∈ items1, x ∈ el1.filter (eligEntry vs vcf) := by
    intro x hx
    rw [hi1] at hx
    rcases mem_fold_stageC hx with h0 | ⟨hm, he⟩
    · simp at h0
    · rw [List.mem_filter]; exact ⟨hm, he⟩
  have hsub2 : ∀ x ∈ items2, x ∈ el1.filter (eligEntry vs vcf) := by
    intro x hx
    rw [hi2] at hx
    rcases mem_fold_stageC hx with h0 | ⟨hm, he⟩
    · simp at h0
    · rw [List.mem_filter]
      exact ⟨hperm.mem_iff.mpr hm, he⟩
  have hitemeq : items1 = items2 := map_eq_of_inj items1 items2 _ hmapeq hsub1 hsub2 hinj
  unfold reserveSampleFromEntries
  rw [sampleItemsRun_eq, sampleItemsRun_eq, ← hi1, ← hi2, hitemeq]

/-- Witness for the amended C3 at two permuted deliveries with distinct
transformed addresses. -/
theorem reserveSample_deterministic_witness :
    List.Perm [exC3c, exC3d] [exC3d, exC3c] ∧
    (([exC3c, exC3d].filter (eligEntry alwaysTrueStamp alwaysTrueChunk)).map
      (fun x => x.transformedAddress)).Nodup ∧
    reserveSampleFromEntries (fun x => x) alwaysTrueStamp (some alwaysTrueChunk)
      [exC3c, exC3d] =
    reserveSampleFromEntries (fun x => x) alwaysTrueStamp (some alwaysTrueChunk)
      [exC3d, exC3c] :=
  ⟨List.Perm.swap exC3d exC3c [], by decide,
   reserveSample_deterministic (fun x => x) alwaysTrueStamp alwaysTrueChunk _ _
     (List.Perm.swap exC3d exC3c []) (by decide)⟩

/-- C4: hash assembly.  Whenever `ReserveSample` returns a sample, its
`sampleContent` is the concatenation, in item order, of chunk address followed
by transformed address, and its `hash` is the CAC address of that content:
the hash of the 8-byte little-endian span of the content length prepended to
the content.  Both are functions of the items alone. -/
theorem reserveSample_hash_assembly
    (trHash bmtHash : List Nat → List Nat) (vs : SwarmChunk → List Nat → Bool)
    (vcfOpt : Option (SwarmChunk → Bool)) (ct : Nat)
    (stream : List (Option ChunkItem)) (smp : Sample)
    (h : ReserveSample trHash bmtHash vs vcfOpt ct stream = some smp) :
    smp.sampleContent = assembleContent smp.items ∧
    smp.hash = bmtHash (le64 (assembleContent smp.items).length ++
      assembleContent smp.items) := by
  unfold ReserveSample reserveSampleFromEntries at h
  cases hrun : sampleItemsRun vs vcfOpt (stageB trHash ct stream) with
  | none => rw [hrun] at h; simp at h
  | some items =>
      rw [hrun] at h
      simp only [Option.some_bind] at h
      unfold sampleOfItems at h
      cases hcac : cacNew bmtHash (assembleContent items) with
      | none => rw [hcac] at h; simp at h
      | some c =>
          rw [hcac] at h
          simp only [Option.map_some'] at h
          injection h with h'
          unfold cacNew at hcac
          by_cases hlen : (assembleContent items).length ≤ 4096
          · rw [if_pos hlen] at hcac
            injection hcac with hc'
            subst hc'
            rw [← h']
            exact ⟨rfl, rfl⟩
          · rw [if_neg hlen] at hcac
            exact absurd hcac (by simp)

/-- Witness for C4 at the empty reserve. -/
theorem reserveSample_hash_assembly_witness :
    (ReserveSample (fun x => x) (fun x => x) alwaysTrueStamp (some alwaysTrueChunk)
      0 [] = some ⟨[], [], le64 0 ++ []⟩) ∧
    (Sample.mk [] [] (le64 0 ++ [])).sampleContent =
      assembleContent (Sample.mk [] [] (le64 0 ++ [])).items ∧
    (Sample.mk [] [] (le64 0 ++ [])).hash =
      (fun x => x) (le64 (assembleContent (Sample.mk [] [] (le64 0 ++ [])).items).length ++
        assembleContent (Sample.mk [] [] (le64 0 ++ [])).items) := by
  have h := reserveSample_hash_assembly (fun x => x) (fun x => x) alwaysTrueStamp
    (some alwaysTrueChunk) 0 [] ⟨[], [], le64 0 ++ []⟩ (by decide)
  exact ⟨by decide, h.1, h.2⟩

/-- C5: empty-reserve behaviour.  If the iteration yields no chunk, or no
chunk survives the timestamp, stamp and chunk-validity filters, then
`ReserveSample` succeeds with no items, empty sample content, and the hash of
the empty CAC payload (the 8-byte zero span alone). -/
theorem reserveSample_empty
    (trHash bmtHash : List Nat → List Nat) (vs : SwarmChunk → List Nat → Bool)
    (vcf : SwarmChunk → Bool) (ct : Nat) (stream : List (Option ChunkItem))
    (hempty : (stageB trHash ct stream).filter (eligEntry vs vcf) = []) :
    ReserveSample trHash bmtHash vs (some vcf) ct stream =
      some ⟨[], [], bmtHash (le64 0 ++ [])⟩ := by
  have hfold : List.foldl (stageCStep vs vcf) [] (stageB trHash ct stream) = [] := by
    have htop := foldStep_topk vs vcf (stageB trHash ct stream) [] [] rfl
    simp only [List.nil_append] at htop
    rw [hempty] at htop
    simp only [List.map_nil] at htop
    have h0 : topk ([] : List (List Nat)) = [] := rfl
    rw [h0] at htop
    exact List.map_eq_nil_iff.mp htop
  have heq := reserveSampleFromEntries_eq_of bmtHash vs (some vcf)
    (stageB trHash ct stream) []
    (by rw [sampleItemsRun_eq, hfold]) (by simp [assembleContent])
  exact heq

/-- Witness for C5 at the literally empty reserve stream. -/
theorem reserveSample_empty_witness :
    ((stageB (fun x => x) 0 ([] : List (Option ChunkItem))).filter
      (eligEntry alwaysTrueStamp alwaysTrueChunk) = []) ∧
    ReserveSample (fun x => x) (fun x => x) alwaysTrueStamp (some alwaysTrueChunk)
      0 [] = some ⟨[], [], le64 0 ++ []⟩ :=
  ⟨rfl, reserveSample_empty (fun x => x) (fun x => x) alwaysTrueStamp
    alwaysTrueChunk 0 [] rfl⟩

/-- C6: stamp issuance.  With the store write succeeding: if no item is stored
for (batch, addr), the stamper stores and signs an item whose index encodes
bucket `ToBucket(bucketDepth, addr)` with sub-index 0 and whose timestamp is
the current time; if an item is found it increments the bucket counter
(`bucketFull` once the counter reaches `2^(depth−bucketDepth)`), overwrites
the stored item with the incremented index and fresh timestamp, and signs it;
any other store error is returned wrapped. -/
theorem stamperStamp_spec (iss : StampIssuer) (signer h : List Nat → List Nat)
    (now : Nat) (getRes : StoreGetResult) (putErr : Option Nat) (addr : List Nat)
    (hput : putErr = none) :
    (getRes = StoreGetResult.notFound →
      stamperStamp iss signer h now getRes putErr addr =
        Except.ok (NewStamp iss.batchID
            (indexToBytes (ToBucket iss.bucketDepth addr) 0) (unixTime now)
            (signer (ToSignDigest h addr iss.batchID
              (indexToBytes (ToBucket iss.bucketDepth addr) 0) (unixTime now))),
          StampItem.mk iss.batchID addr
            (indexToBytes (ToBucket iss.bucketDepth addr) 0) (unixTime now), iss)) ∧
    (∀ it0, getRes = StoreGetResult.found it0 →
      ((BucketUpperBound iss ≤ iss.buckets.getD (ToBucket iss.bucketDepth addr) 0 →
          stamperStamp iss signer h now getRes putErr addr =
            Except.error StampErr.bucketFull) ∧
       (iss.buckets.getD (ToBucket iss.bucketDepth addr) 0 < BucketUpperBound iss →
          stamperStamp iss signer h now getRes putErr addr =
            Except.ok (NewStamp iss.batchID
                (indexToBytes (ToBucket iss.bucketDepth addr)
                  (iss.buckets.getD (ToBucket iss.bucketDepth addr) 0)) (unixTime now)
                (signer (ToSignDigest h addr iss.batchID
                  (indexToBytes (ToBucket iss.bucketDepth addr)
                    (iss.buckets.getD (ToBucket iss.bucketDepth addr) 0))
                  (unixTime now))),
              StampItem.mk iss.batchID addr
                (indexToBytes (ToBucket iss.bucketDepth addr)
                  (iss.buckets.getD (ToBucket iss.bucketDepth addr) 0)) (unixTime now),
              StampIssuer.mk iss.batchID iss.depth iss.bucketDepth
                (iss.buckets.set (ToBucket iss.bucketDepth addr)
                  (iss.buckets.getD (ToBucket iss.bucketDepth addr) 0 + 1)))))) ∧
    (∀ e, getRes = StoreGetResult.err e →
      stamperStamp iss signer h now getRes putErr addr =
        Except.error (StampErr.wrappedGet e)) := by
  subst hput
  refine ⟨?_, ?_, ?_⟩
  · intro hg; subst hg; rfl
  · intro it0 hg
    subst hg
    constructor
    · intro hfull
      simp only [stamperStamp, StampIssuer.increment]
      rw [if_pos hfull]
    · intro hlt
      simp only [stamperStamp, StampIssuer.increment]
      rw [if_neg (by omega)]
  · intro e hg; subst hg; rfl

/-- Witness for C6: a fresh stamp issued at concrete inputs. -/
theorem stamperStamp_spec_witness :
    stamperStamp exC6iss (fun x => x) (fun x => x) 7 StoreGetResult.notFound
      none [0, 0, 0, 0] =
      Except.ok (NewStamp exC6iss.batchID
          (indexToBytes (ToBucket exC6iss.bucketDepth [0, 0, 0, 0]) 0) (unixTime 7)
          ((fun x => x) (ToSignDigest (fun x => x) [0, 0, 0, 0] exC6iss.batchID
            (indexToBytes (ToBucket exC6iss.bucketDepth [0, 0, 0, 0]) 0) (unixTime 7))),
        StampItem.mk exC6iss.batchID [0, 0, 0, 0]
          (indexToBytes (ToBucket exC6iss.bucketDepth [0, 0, 0, 0]) 0) (unixTime 7),
        exC6iss) :=
  (stamperStamp_spec exC6iss (fun x => x) (fun x => x) 7 StoreGetResult.notFound
    none [0, 0, 0, 0] rfl).1 rfl

/-- C7: the presigned stamper returns the provided stamp exactly when the
owner recovered from the stamp signature over the chunk address equals the
declared owner; on a mismatch it returns `invalidBatchSignature` and no stamp;
a recovery failure is passed through. -/
theorem presignedStamp_spec (recover : List Nat → Stamp → Except Nat (List Nat))
    (owner : List Nat) (st : Stamp) (addr : List Nat) :
    (∀ sa, recover addr st = Except.ok sa →
      ((presignedStamperStamp recover owner st addr = Except.ok st ↔ owner = sa) ∧
       (owner ≠ sa → presignedStamperStamp recover owner st addr =
         Except.error PresignErr.invalidBatchSignature))) ∧
    (∀ e, recover addr st = Except.error e →
      presignedStamperStamp recover owner st addr =
        Except.error (PresignErr.other e)) := by
  constructor
  · intro sa hrec
    have hstep : presignedStamperStamp recover owner st addr =
        (if owner = sa then Except.ok st
         else Except.error PresignErr.invalidBatchSignature) := by
      unfold presignedStamperStamp
      rw [hrec]
    rw [hstep]
    constructor
    · constructor
      · intro hok
        by_cases he : owner = sa
        · exact he
        · rw [if_neg he] at hok
          exact absurd hok (by simp)
      · intro he
        rw [if_pos he]
    · intro hne
      rw [if_neg hne]
  · intro e hrec
    unfold presignedStamperStamp
    rw [hrec]

/-- Witness for C7 at a concrete mismatching owner. -/
theorem presignedStamp_spec_witness :
    (presignedStamperStamp exC7recover [4] exC7stamp [1] = Except.ok exC7stamp ↔
      ([4] : List Nat) = [3]) ∧
    (([4] : List Nat) ≠ [3] →
      presignedStamperStamp exC7recover [4] exC7stamp [1] =
        Except.error PresignErr.invalidBatchSignature) :=
  (presignedStamp_spec exC7recover [4] exC7stamp [1]).1 [3] rfl

/-- C8 counterexample: the execution trace of `stamper.Stamp` does not begin
with the keyed batch lock; the issuer mutex is acquired first (lines 334 and
343 of the source). -/
theorem stampTrace_claim_order_false :
    ¬ claimC8Order [] (StampTrace [] StoreGetResult.notFound true true) := by
  intro hcl
  unfold claimC8Order at hcl
  rw [show (StampTrace [] StoreGetResult.notFound true true).take 2 =
    [StampEvent.issuerMtxLock, StampEvent.stampLockerLock (stampLockKey [])]
    from rfl] at hcl
  exact absurd hcl (by simp)

/-- C8 (amended): every `stamper.Stamp` execution acquires the issuer's own
mutex first and the process-wide keyed batch lock (key
"postageIdStamp-"‖hex(batchId)) second, holds both across the store lookup,
counter increment, store write and signing, and releases them in reverse
order, so the read-modify-write of the stored item and the counters happens
with both locks held. -/
theorem stampTrace_lock_order (batchID : List Nat) (getRes : StoreGetResult)
    (incrOk putOk : Bool) :
    ∃ mid, StampTrace batchID getRes incrOk putOk =
      [StampEvent.issuerMtxLock, StampEvent.stampLockerLock (stampLockKey batchID),
        StampEvent.storeGet] ++ mid ++
      [StampEvent.stampLockerUnlock (stampLockKey batchID),
        StampEvent.issuerMtxUnlock] ∧
      ∀ ev ∈ mid, ev = StampEvent.storePut ∨ ev = StampEvent.issuerIncrement ∨
        ev = StampEvent.signDigest := by
  cases getRes with
  | err e => exact ⟨[], rfl, by simp⟩
  | notFound =>
      cases putOk with
      | true => exact ⟨[StampEvent.storePut, StampEvent.signDigest], rfl, by decide⟩
      | false => exact ⟨[StampEvent.storePut], rfl, by decide⟩
  | found it0 =>
      cases incrOk with
      | false => exact ⟨[StampEvent.issuerIncrement], rfl, by decide⟩
      | true =>
          cases putOk with
          | true => exact ⟨[StampEvent.issuerIncrement, StampEvent.storePut,
              StampEvent.signDigest], rfl, by decide⟩
          | false => exact ⟨[StampEvent.issuerIncrement, StampEvent.storePut],
              rfl, by decide⟩

/-- C9 counterexample: Stage A's blocking send selects only over context
cancellation and database close; the sampler-stop signal has no select case
there (lines 514-523). -/
theorem stageA_missing_sampler_stop :
    CancelSignal.samplerStopped ∈ allCancelSignals ∧
    CancelSignal.samplerStopped ∉ stageASendSignals ∧
    ¬ claimC9AllSignals := by
  refine ⟨by decide, by decide, ?_⟩
  intro hcl
  unfold claimC9AllSignals at hcl
  exact absurd (hcl.1 CancelSignal.samplerStopped (by decide)) (by decide)

/-- C9 (amended): Stage B's blocking send selects over all three termination
signals, each mapped to a dedicated error; Stage A's blocking send selects
only over context cancellation and database close, each mapped to an error,
and has no sampler-stop case. -/
theorem cancellation_signal_coverage :
    (∀ s ∈ allCancelSignals, s ∈ stageBSendSignals ∧
      (stageBSignalError s).isSome = true) ∧
    stageASendSignals = [CancelSignal.ctxDone, CancelSignal.dbClosed] ∧
    (∀ s ∈ stageASendSignals, (stageASignalError s).isSome = true) ∧
    CancelSignal.samplerStopped ∉ stageASendSignals := by
  decide

/-- C10: the package-level function variable `validChunkFn` is declared but
never assigned in this source: it is the nil function (`none`), it is not the
package's own `validChunk`, and the Stage C step that reaches the
chunk-validity call on a stamp-valid entry has no defined result, whereas any
externally wired total function gives a defined result. -/
theorem validChunkFn_unassigned :
    validChunkFn = none ∧
    (∀ cv sv : SwarmChunk → Bool, validChunkFn ≠ some (validChunk cv sv)) ∧
    (∀ (vs : SwarmChunk → List Nat → Bool) (e : SampleEntry),
      vs (chunkOfEntry e) (stampMarshal e.chunkItem) = true →
      stageCStepOpt vs validChunkFn [] e = none) ∧
    (∀ (vs : SwarmChunk → List Nat → Bool) (f : SwarmChunk → Bool) (e : SampleEntry),
      vs (chunkOfEntry e) (stampMarshal e.chunkItem) = true →
      (stageCStepOpt vs (some f) [] e).isSome = true) := by
  refine ⟨rfl, fun cv sv => by simp [validChunkFn], ?_, ?_⟩
  · intro vs e hvs
    unfold stageCStepOpt validChunkFn
    rw [if_pos (by simp [sampleSize] :
      (le e.transformedAddress (currentMaxAddr ([] : List SampleEntry)) ||
        decide (([] : List SampleEntry).length < sampleSize)) = true)]
    rw [if_pos hvs]
  · intro vs f e hvs
    unfold stageCStepOpt
    rw [if_pos (by simp [sampleSize] :
      (le e.transformedAddress (currentMaxAddr ([] : List SampleEntry)) ||
        decide (([] : List SampleEntry).length < sampleSize)) = true)]
    rw [if_pos hvs]
    by_cases hf : f (chunkOfEntry e) = true
    · simp [hf]
    · simp [hf]

/-- Witness for C10: the nil chunk-validity function makes the step undefined
on a concrete stamp-valid entry, while a wired function keeps it defined. -/
theorem validChunkFn_unassigned_witness :
    ((fun _ _ => true : SwarmChunk → List Nat → Bool) (chunkOfEntry exC10e)
      (stampMarshal exC10e.chunkItem) = true) ∧
    stageCStepOpt (fun _ _ => true) validChunkFn [] exC10e = none ∧
    (stageCStepOpt (fun _ _ => true) (some alwaysTrueChunk) [] exC10e).isSome = true :=
  ⟨rfl, validChunkFn_unassigned.2.2.1 (fun _ _ => true) exC10e rfl,
   validChunkFn_unassigned.2.2.2 (fun _ _ => true) alwaysTrueChunk exC10e rfl⟩
